import Mathlib

/-!
Verification of the aindex k-mer index engine against its specification.

The embedding covers the query engine of `src/python_wrapper.cpp`
(`AindexWrapper`: tf lookups on the 23-mer and 13-mer paths, positions
lookups, strand classification, read-store resolution) and the reads-store
builder `src/Compute_reads.cpp`.  Kmers and reads are modelled as `List Char`,
machine words as `Nat` (all stored values fit: packed 23-mers are below 4^23,
tf values are u32 counters, offsets are file positions).

The DNA codec (`get_dna23_bitset`, `get_bitset_dna23`, `reverseDNA` of
`kmers.hpp`/`hash.hpp`), `get_revcomp` of `read.hpp`, the emphf MPHF and
`PHASH_MAP::get_pfid` of `hash.hpp` are not part of the provided sources;
they are modelled from the spec (sections 3, 4.A, 4.B, 4.C, 4.H) and each
such definition is marked `Modelled from the spec:` in its doc comment.
-/

namespace Aindex

/-- Nucleotide code (spec section 3, PackedKmer): A=00, C=01, G=10, T=11. -/
def nucCode (c : Char) : Nat :=
  if c = 'A' then 0 else if c = 'C' then 1 else if c = 'G' then 2
  else if c = 'T' then 3 else 0

/-- Decode a 2-bit nucleotide code back to a character. -/
def decodeNuc (d : Nat) : Char :=
  if d = 0 then 'A' else if d = 1 then 'C' else if d = 2 then 'G' else 'T'

/-- Base-wise complement as implemented by
`get_reverse_complement_13mer` (python_wrapper.cpp:451) and `get_read`
(python_wrapper.cpp:583): A and T swap, C and G swap, anything else is
unchanged. -/
def rcChar (c : Char) : Char :=
  if c = 'A' then 'T' else if c = 'T' then 'A' else if c = 'G' then 'C'
  else if c = 'C' then 'G' else c

/-- Membership in the DNA alphabet, as checked by the validation loops of
`get_tf_value_13mer` and `get_positions_13mer`. -/
def isACGTb (c : Char) : Bool :=
  c = 'A' || c = 'T' || c = 'G' || c = 'C'

/-- A kmer all of whose characters are in {A,C,G,T}. -/
def validb (s : List Char) : Bool := s.all isACGTb

/-- String-level reverse complement: reverse, then complement each base.
This is `get_reverse_complement_13mer` (python_wrapper.cpp:451-463); it is
also the model for `get_revcomp` of read.hpp, which is not in the sources
(Modelled from the spec: sections 4.A and 6 prescribe the base-wise reverse
complement with non-ACGT characters kept). -/
def get_revcomp (s : List Char) : List Char := s.reverse.map rcChar

/-- Value of a little-endian list of base-4 digits. -/
def ofDigits : List Nat → Nat
  | [] => 0
  | d :: ds => d + 4 * ofDigits ds

/-- The k little-endian base-4 digits of a number. -/
def toDigits : Nat → Nat → List Nat
  | 0, _ => []
  | k + 1, u => u % 4 :: toDigits k (u / 4)

/-- Modelled from the spec: `get_dna23_bitset` (kmers.hpp, not in the
sources).  Spec section 3: two bits per base, leftmost base in the
most-significant occupied bit pair, so packing folds left over the string. -/
def packDNA (s : List Char) : Nat := s.foldl (fun a c => 4 * a + nucCode c) 0

/-- Modelled from the spec: `get_bitset_dna23` (kmers.hpp, not in the
sources).  Unpack the k base-4 digits, most significant digit first. -/
def unpackDNA (k u : Nat) : List Char := ((toDigits k u).map decodeNuc).reverse

/-- Modelled from the spec: `reverseDNA` (kmers.hpp, not in the sources).
Spec section 3: complement, then reverse the k significant 2-bit digits. -/
def reverseDNA (k u : Nat) : Nat :=
  ofDigits (((toDigits k u).reverse).map (fun d => 3 - d))

@[simp] lemma toDigits_length (k u : Nat) : (toDigits k u).length = k := by
  induction k generalizing u with
  | zero => rfl
  | succ k ih => simp [toDigits, ih]

lemma toDigits_lt (k u : Nat) : ∀ d ∈ toDigits k u, d < 4 := by
  induction k generalizing u with
  | zero => simp [toDigits]
  | succ k ih =>
    intro d hd
    simp only [toDigits, List.mem_cons] at hd
    rcases hd with h | h
    · omega
    · exact ih _ _ h

lemma ofDigits_toDigits (k u : Nat) (h : u < 4 ^ k) :
    ofDigits (toDigits k u) = u := by
  induction k generalizing u with
  | zero => simp [toDigits, ofDigits]; omega
  | succ k ih =>
    have hd : u / 4 < 4 ^ k := by
      have : 4 ^ (k + 1) = 4 ^ k * 4 := by ring
      omega
    simp [toDigits, ofDigits, ih (u / 4) hd]
    omega

lemma toDigits_ofDigits (k : Nat) (ds : List Nat) (hlen : ds.length = k)
    (hd : ∀ d ∈ ds, d < 4) : toDigits k (ofDigits ds) = ds := by
  induction ds generalizing k with
  | nil => subst hlen; rfl
  | cons d ds ih =>
    subst hlen
    have hd0 : d < 4 := hd d (List.mem_cons_self _ _)
    have hmod : (d + 4 * ofDigits ds) % 4 = d := by omega
    have hdiv : (d + 4 * ofDigits ds) / 4 = ofDigits ds := by omega
    simp [toDigits, ofDigits, hmod, hdiv,
      ih ds.length rfl (fun x hx => hd x (List.mem_cons_of_mem _ hx))]

lemma ofDigits_append (l1 l2 : List Nat) :
    ofDigits (l1 ++ l2) = ofDigits l1 + 4 ^ l1.length * ofDigits l2 := by
  induction l1 with
  | nil => simp [ofDigits]
  | cons d ds ih => simp [ofDigits, ih]; ring

lemma ofDigits_lt (ds : List Nat) (hd : ∀ d ∈ ds, d < 4) :
    ofDigits ds < 4 ^ ds.length := by
  induction ds with
  | nil => simp [ofDigits]
  | cons d l ih =>
    have h0 : d < 4 := hd d (List.mem_cons_self _ _)
    have h1 : ofDigits l < 4 ^ l.length :=
      ih (fun x hx => hd x (List.mem_cons_of_mem _ hx))
    have : 4 ^ (d :: l).length = 4 * 4 ^ l.length := by
      simp [List.length_cons]; ring
    simp only [ofDigits, this]
    omega

lemma packDNA_eq (s : List Char) :
    packDNA s = ofDigits ((s.map nucCode).reverse) := by
  suffices h : ∀ a, s.foldl (fun a c => 4 * a + nucCode c) a =
      ofDigits ((s.map nucCode).reverse) + 4 ^ s.length * a by
    simpa [packDNA] using h 0
  induction s with
  | nil => intro a; simp [ofDigits]
  | cons c t ih =>
    intro a
    simp only [List.foldl_cons, ih, List.map_cons, List.reverse_cons,
      ofDigits_append, List.length_cons, ofDigits, List.length_reverse,
      List.length_map]
    ring

lemma nucCode_lt (c : Char) : nucCode c < 4 := by
  unfold nucCode
  repeat' split
  all_goals omega

lemma packDNA_lt (s : List Char) : packDNA s < 4 ^ s.length := by
  rw [packDNA_eq]
  have := ofDigits_lt ((s.map nucCode).reverse) (by
    intro d hd
    simp only [List.mem_reverse, List.mem_map] at hd
    obtain ⟨c, _, rfl⟩ := hd
    exact nucCode_lt c)
  simpa using this

lemma toDigits_packDNA (s : List Char) :
    toDigits s.length (packDNA s) = (s.map nucCode).reverse := by
  rw [packDNA_eq]
  exact toDigits_ofDigits _ _ (by simp) (by
    intro d hd
    simp only [List.mem_reverse, List.mem_map] at hd
    obtain ⟨c, _, rfl⟩ := hd
    exact nucCode_lt c)

lemma toDigits_reverseDNA (k u : Nat) :
    toDigits k (reverseDNA k u) = ((toDigits k u).reverse).map (fun d => 3 - d) := by
  unfold reverseDNA
  exact toDigits_ofDigits _ _ (by simp) (by
    intro d hd
    simp only [List.mem_map] at hd
    obtain ⟨x, _, rfl⟩ := hd
    omega)

lemma reverseDNA_lt (k u : Nat) : reverseDNA k u < 4 ^ k := by
  unfold reverseDNA
  have := ofDigits_lt (((toDigits k u).reverse).map (fun d => 3 - d)) (by
    intro d hd
    simp only [List.mem_map] at hd
    obtain ⟨x, _, rfl⟩ := hd
    omega)
  simpa using this

lemma reverseDNA_reverseDNA (k u : Nat) (h : u < 4 ^ k) :
    reverseDNA k (reverseDNA k u) = u := by
  conv_lhs => rw [reverseDNA, toDigits_reverseDNA]
  rw [← List.map_reverse, List.reverse_reverse, List.map_map]
  have hmap : ((toDigits k u).map ((fun d => 3 - d) ∘ fun d => 3 - d)) = toDigits k u := by
    apply List.map_congr_left ?_ |>.trans (List.map_id _)
    intro d hd
    have := toDigits_lt k u d hd
    simp only [Function.comp_apply, id_eq]
    omega
  rw [hmap, ofDigits_toDigits k u h]

lemma validb_iff (s : List Char) :
    validb s = true ↔ ∀ c ∈ s, isACGTb c = true := by
  simp [validb, List.all_eq_true]

lemma decodeNuc_nucCode (c : Char) (h : isACGTb c = true) :
    decodeNuc (nucCode c) = c := by
  simp only [isACGTb, Bool.or_eq_true, decide_eq_true_eq] at h
  rcases h with ((h | h) | h) | h <;> subst h <;> rfl

lemma nucCode_rcChar (c : Char) (h : isACGTb c = true) :
    nucCode (rcChar c) = 3 - nucCode c := by
  simp only [isACGTb, Bool.or_eq_true, decide_eq_true_eq] at h
  rcases h with ((h | h) | h) | h <;> subst h <;> rfl

lemma decodeNuc_compl (c : Char) (h : isACGTb c = true) :
    decodeNuc (3 - nucCode c) = rcChar c := by
  simp only [isACGTb, Bool.or_eq_true, decide_eq_true_eq] at h
  rcases h with ((h | h) | h) | h <;> subst h <;> rfl

lemma isACGTb_rcChar (c : Char) (h : isACGTb c = true) :
    isACGTb (rcChar c) = true := by
  simp only [isACGTb, Bool.or_eq_true, decide_eq_true_eq] at h ⊢
  rcases h with ((h | h) | h) | h <;> subst h <;> simp [rcChar]

@[simp] lemma get_revcomp_length (s : List Char) :
    (get_revcomp s).length = s.length := by
  simp [get_revcomp]

lemma validb_get_revcomp (s : List Char) (h : validb s = true) :
    validb (get_revcomp s) = true := by
  rw [validb_iff] at h ⊢
  intro c hc
  simp only [get_revcomp, List.mem_map, List.mem_reverse] at hc
  obtain ⟨x, hx, rfl⟩ := hc
  exact isACGTb_rcChar x (h x hx)

lemma packDNA_get_revcomp (s : List Char) (hv : validb s = true) :
    packDNA (get_revcomp s) = reverseDNA s.length (packDNA s) := by
  rw [validb_iff] at hv
  rw [packDNA_eq, reverseDNA, toDigits_packDNA, get_revcomp]
  congr 1
  rw [List.reverse_reverse, List.map_map, List.map_map, List.map_reverse,
    List.reverse_reverse]
  apply List.map_congr_left
  intro c hc
  simp only [Function.comp_apply]
  exact nucCode_rcChar c (hv c hc)

lemma unpackDNA_packDNA (s : List Char) (hv : validb s = true) :
    unpackDNA s.length (packDNA s) = s := by
  rw [validb_iff] at hv
  rw [unpackDNA, toDigits_packDNA, ← List.map_reverse, List.reverse_reverse,
    List.map_map]
  apply List.map_congr_left ?_ |>.trans (List.map_id _)
  intro c hc
  simp only [Function.comp_apply, id_eq]
  exact decodeNuc_nucCode c (hv c hc)

lemma unpackDNA_reverseDNA_packDNA (s : List Char) (hv : validb s = true) :
    unpackDNA s.length (reverseDNA s.length (packDNA s)) = get_revcomp s := by
  have hv2 := hv
  rw [validb_iff] at hv2
  rw [unpackDNA, toDigits_reverseDNA, toDigits_packDNA, List.reverse_reverse,
    List.map_map, List.map_map, get_revcomp, ← List.map_reverse]
  apply List.map_congr_left
  intro c hc
  simp only [Function.comp_apply]
  exact decodeNuc_compl c (hv2 c (List.mem_reverse.mp hc))

lemma sum_map_compl (l : List Nat) (hd : ∀ d ∈ l, d < 4) :
    (l.map (fun d => 3 - d)).sum + l.sum = 3 * l.length := by
  induction l with
  | nil => simp
  | cons d t ih =>
    have h0 : d < 4 := hd d (List.mem_cons_self _ _)
    have h1 := ih (fun x hx => hd x (List.mem_cons_of_mem _ hx))
    simp only [List.map_cons, List.sum_cons, List.length_cons]
    omega

lemma reverseDNA_ne_self_23 (u : Nat) :
    reverseDNA 23 u ≠ u := by
  intro h
  have hdig : toDigits 23 u = ((toDigits 23 u).reverse).map (fun d => 3 - d) := by
    conv_lhs => rw [← h, toDigits_reverseDNA]
  have hlen : (toDigits 23 u).length = 23 := toDigits_length 23 u
  have hsum := congrArg List.sum hdig
  have hc := sum_map_compl ((toDigits 23 u).reverse) (by
    intro d hd
    exact toDigits_lt 23 u d (List.mem_reverse.mp hd))
  rw [List.sum_reverse, List.length_reverse, hlen] at hc
  omega

/-- The loaded `PHASH_MAP` of hash.hpp: the emphf MPHF plus the checker and
tf arrays.  The MPHF itself is not in the sources; per spec section 4.B its
`lookup` returns a distinct id in [0,N) for keys of the build set and an
arbitrary value for out-of-set keys, so it is modelled as an arbitrary
function carried by the state (Modelled from the spec: hash.hpp `HASHER`). -/
structure PHashMap where
  n : Nat
  lookup : List Char → Nat
  checker : List Nat
  tf_values : List Nat

/-- The forward checker test of the 23-mer query procedure: the MPHF id of
the query is in range and its checker entry equals the packed query word. -/
def fwdOkb (hm : PHashMap) (s : List Char) : Bool :=
  decide (hm.lookup s < hm.n) &&
    decide (hm.checker.getD (hm.lookup s) 0 = packDNA s)

/-- The data-model invariant of spec section 3: every checker entry is a
canonical kmer, i.e. not larger than its own reverse complement. -/
def canonicalOK (hm : PHashMap) : Bool :=
  (List.range hm.n).all
    (fun i => decide (hm.checker.getD i 0 ≤ reverseDNA 23 (hm.checker.getD i 0)))

/-- `AindexWrapper::get_tf_value_23mer` (python_wrapper.cpp:539-556); the
same procedure appears as `get` (std::string overload) at
python_wrapper.cpp:1448-1466. -/
def get_tf_value_23mer (hm : PHashMap) (s : List Char) : Nat :=
  if hm.n ≤ hm.lookup s ∨ hm.checker.getD (hm.lookup s) 0 ≠ packDNA s then
    if hm.n ≤ hm.lookup (unpackDNA 23 (reverseDNA 23 (packDNA s))) ∨
        hm.checker.getD (hm.lookup (unpackDNA 23 (reverseDNA 23 (packDNA s)))) 0 ≠
          reverseDNA 23 (packDNA s) then 0
    else hm.tf_values.getD (hm.lookup (unpackDNA 23 (reverseDNA 23 (packDNA s)))) 0
  else hm.tf_values.getD (hm.lookup s) 0

/-- `AindexWrapper::get_strand` (python_wrapper.cpp:632-648); the same
procedure appears at python_wrapper.cpp:1493-1510.  0 = NotFound,
1 = Forward, 2 = Reverse. -/
def get_strand (hm : PHashMap) (s : List Char) : Nat :=
  if hm.n ≤ hm.lookup s ∨ hm.checker.getD (hm.lookup s) 0 ≠ packDNA s then
    if hm.n ≤ hm.lookup (unpackDNA 23 (reverseDNA 23 (packDNA s))) ∨
        hm.checker.getD (hm.lookup (unpackDNA 23 (reverseDNA 23 (packDNA s)))) 0 ≠
          reverseDNA 23 (packDNA s) then 0
    else 2
  else 1

/-- Modelled from the spec: `PHASH_MAP::get_pfid` lives in hash.hpp, which
is not in the sources.  Spec section 4.C (`get_id`) prescribes the canonical
lookup with checker verification on both strands, and section 4.G prescribes
that a not-in-set kmer yields the empty positions, so the modelled function
is Option-valued with `none` for not-in-set. -/
def get_pfid (hm : PHashMap) (s : List Char) : Option Nat :=
  if hm.n ≤ hm.lookup s ∨ hm.checker.getD (hm.lookup s) 0 ≠ packDNA s then
    if hm.n ≤ hm.lookup (unpackDNA 23 (reverseDNA 23 (packDNA s))) ∨
        hm.checker.getD (hm.lookup (unpackDNA 23 (reverseDNA 23 (packDNA s)))) 0 ≠
          reverseDNA 23 (packDNA s) then none
    else some (hm.lookup (unpackDNA 23 (reverseDNA 23 (packDNA s))))
  else some (hm.lookup s)

/-- Modelled from the spec: the 13-mer hasher (`hasher_13mer`, a hash.hpp
`HASHER` loaded from disk, not in the sources).  Spec section 4.H replaces
the MPHF on the 13-mer path by the identity map on the packed canonical
word: id = min(packed, packed reverse complement). -/
def lookup13 (s : List Char) : Nat :=
  min (packDNA s) (reverseDNA 13 (packDNA s))

/-- Number of 13-mer slots, `TOTAL_13MERS = 4^13` (python_wrapper.cpp:141). -/
def TOTAL13 : Nat := 67108864

/-- The loaded state of `AindexWrapper` (python_wrapper.cpp:130-161):
the optional 23-mer hash map, the 13-mer arrays, the 23-mer positional
index, and the reads store.  Null pointers are modelled by `Option` or by
the corresponding loaded flags; `rows` holds the parsed .ridx triples in
file order, from which `load_reads_index` (python_wrapper.cpp:207-225)
derives `start_positions`, `start2end` and the interval list. -/
structure AindexState where
  hash_map : Option PHashMap
  is_13mer_mode : Bool
  tf13 : List Nat
  positions13 : List Nat
  indices13 : List Nat
  n13 : Nat
  pos13_loaded : Bool
  indices : List Nat
  positions : List Nat
  indices_length : Nat
  aindex23_loaded : Bool
  rows : List (Nat × Nat × Nat)
  reads : List Char
  aindex_loaded : Bool

/-- The position-collecting loop shared by `get_positions`
(python_wrapper.cpp:706-711, 1552-1557) and `get_positions_13mer`
(python_wrapper.cpp:936-940, 952-956): iterate the slice, skip zero
entries, push `positions[i] - 1`. -/
def posLoop (ps : List Nat) (a b : Nat) : List Nat :=
  if _h : a < b then
    (if ps.getD a 0 = 0 then [] else [ps.getD a 0 - 1]) ++ posLoop ps (a + 1) b
  else []
termination_by b - a

/-- `AindexWrapper::get_tf_value_13mer` (python_wrapper.cpp:421-449):
mode and length gates, ACGT validation, forward lookup, then reverse
complement fallback. -/
def get_tf_value_13mer (st : AindexState) (s : List Char) : Nat :=
  if ¬ st.is_13mer_mode = true ∨ s.length ≠ 13 then 0
  else if s.any (fun c => ¬ isACGTb c) then 0
  else if lookup13 s < TOTAL13 then st.tf13.getD (lookup13 s) 0
  else if lookup13 (get_revcomp s) < TOTAL13 then
    st.tf13.getD (lookup13 (get_revcomp s)) 0
  else 0

/-- `AindexWrapper::get_positions_13mer` (python_wrapper.cpp:913-960):
mode, length and null-pointer gates, ACGT validation, then the slice
`[indices_13mer[h], indices_13mer[h+1])` bounded by `n_13mer`, forward
first and reverse complement as fallback. -/
def get_positions_13mer (st : AindexState) (s : List Char) : List Nat :=
  if ¬ st.is_13mer_mode = true ∨ s.length ≠ 13 ∨ ¬ st.pos13_loaded = true then []
  else if s.any (fun c => ¬ isACGTb c) then []
  else if lookup13 s < TOTAL13 then
    posLoop st.positions13 (st.indices13.getD (lookup13 s) 0)
      (min (st.indices13.getD (lookup13 s + 1) 0) st.n13)
  else if lookup13 (get_revcomp s) < TOTAL13 then
    posLoop st.positions13 (st.indices13.getD (lookup13 (get_revcomp s)) 0)
      (min (st.indices13.getD (lookup13 (get_revcomp s) + 1) 0) st.n13)
  else []

/-- `AindexWrapper::get_positions` (python_wrapper.cpp:695-717): dispatch
on kmer length; the 23-mer branch guards on null pointers, resolves the id
with `get_pfid` and collects the slice while `h1 + 1 < indices_length`
(`indices_length` is the byte length of the mapped indices file). -/
def get_positions (st : AindexState) (s : List Char) : List Nat :=
  if s.length = 13 then get_positions_13mer st s
  else if s.length = 23 then
    match st.hash_map with
    | none => []
    | some hm =>
      if ¬ st.aindex23_loaded = true then []
      else
        match get_pfid hm s with
        | none => []
        | some h1 =>
          if h1 + 1 < st.indices_length then
            posLoop st.positions (st.indices.getD h1 0) (st.indices.getD (h1 + 1) 0)
          else []
  else []

/-- `AindexWrapper::get_tf_values` (python_wrapper.cpp:465-526): batch tf
lookup.  Mode is auto-detected from the first kmer; the 13-mer branch
repeats the single-kmer procedure, while the 23-mer branch performs a raw
`hasher.lookup` with no checker verification and no reverse complement
fallback. -/
def get_tf_values (st : AindexState) (kmers : List (List Char)) : List Nat :=
  if kmers = [] then []
  else
    if (kmers.headD []).length = 13 ∧ st.is_13mer_mode = true then
      kmers.map (fun s =>
        if s.length ≠ 13 then 0
        else if s.any (fun c => ¬ isACGTb c) then 0
        else if lookup13 s < TOTAL13 then st.tf13.getD (lookup13 s) 0
        else if lookup13 (get_revcomp s) < TOTAL13 then
          st.tf13.getD (lookup13 (get_revcomp s)) 0
        else 0)
    else if (kmers.headD []).length = 23 ∧ st.hash_map.isSome = true then
      match st.hash_map with
      | some hm => kmers.map (fun s => hm.tf_values.getD (hm.lookup s) 0)
      | none => List.replicate kmers.length 0
    else List.replicate kmers.length 0

/-- `start_positions` derived by `load_reads_index`
(python_wrapper.cpp:207-225): the start offsets of the .ridx rows in file
order. -/
def startPositions (st : AindexState) : List Nat :=
  st.rows.map (fun r => r.2.1)

/-- The `start2end` unordered map filled by `load_reads_index`: the last
row written for a key wins, a missing key reads as 0 (operator[] default
insertion). -/
def start2end (st : AindexState) (start : Nat) : Nat :=
  (((st.rows.reverse).find? (fun r => r.2.1 = start)).map (fun r => r.2.2)).getD 0

/-- The `pos_intervalTree` contents: `load_reads_index` inserts
`(rid, start, end + 1)` for every row, in file order (`sort` is never
called on the pybind wrapper's interval vector). -/
def intervalsOf (st : AindexState) : List (Nat × Nat × Nat) :=
  st.rows.map (fun r => (r.1, r.2.1, r.2.2 + 1))

/-- `IntervalTree::query` (python_wrapper.cpp:65-73): linear scan keeping
the intervals with `interval.start <= end && interval.end >= start`. -/
def queryIntervals (st : AindexState) (a b : Nat) : List (Nat × Nat × Nat) :=
  (intervalsOf st).filter (fun iv => decide (iv.2.1 ≤ b ∧ a ≤ iv.2.2))

/-- `AindexWrapper::get_rid` (python_wrapper.cpp:661-676): 0 unless the
aindex is loaded and some interval overlaps `[pos, pos+1]`; otherwise the
rid of the first overlapping interval in insertion order. -/
def get_rid (st : AindexState) (pos : Nat) : Nat :=
  if ¬ st.aindex_loaded = true ∨ intervalsOf st = [] then 0
  else
    match queryIntervals st pos (pos + 1) with
    | [] => 0
    | iv :: _ => iv.1

/-- `AindexWrapper::get_read_by_rid` (python_wrapper.cpp:572-581): empty
string when `rid` is out of range, otherwise the `end - start + 1` bytes
starting at the read's start offset. -/
def get_read_by_rid (st : AindexState) (rid : Nat) : List Char :=
  if (startPositions st).length ≤ rid then []
  else
    (st.reads.drop ((startPositions st).getD rid 0)).take
      (start2end st ((startPositions st).getD rid 0) -
        (startPositions st).getD rid 0 + 1)

/-- The byte at offset p of the reads blob is covered by the read that
`get_rid` resolves p to: the returned read spans an interval containing p
and the byte at the corresponding local offset is the byte at p.  This is
the property of spec section 8, item 7. -/
def coversByte (st : AindexState) (p : Nat) : Prop :=
  (startPositions st).getD (get_rid st p) 0 ≤ p ∧
  p - (startPositions st).getD (get_rid st p) 0 <
    (get_read_by_rid st (get_rid st p)).length ∧
  (get_read_by_rid st (get_rid st p)).getD
    (p - (startPositions st).getD (get_rid st p) 0) 'A' =
      st.reads.getD p 'A'

/-- Output state of `Compute_reads.cpp`: the bytes written to the .reads
file, the rows written to the .ridx file, and the loop variables
`start_pos` and `n_reads`. -/
structure CRState where
  out : List Char
  ridx : List (Nat × Nat × Nat)
  start_pos : Nat
  n_reads : Nat

/-- The initial state of the Compute_reads main loop. -/
def crInit : CRState := ⟨[], [], 0, 0⟩

/-- One iteration of the fastq branch of Compute_reads.cpp (lines 45-79):
write subread1, `~`, the reverse complement of subread2 and a newline; emit
the .ridx row `(n_reads, start_pos, end_pos)` with
`end_pos = start_pos + |l1| + |l2| + 1`; continue at `end_pos + 1`. -/
def fastqStep (st : CRState) (l1 l2 : List Char) : CRState :=
  let end_pos := st.start_pos + l1.length + l2.length + 1
  { out := st.out ++ l1 ++ ['~'] ++ get_revcomp l2 ++ ['\n'],
    ridx := st.ridx ++ [(st.n_reads, st.start_pos, end_pos)],
    start_pos := end_pos + 1,
    n_reads := st.n_reads + 1 }

/-- The fastq main loop over the paired records (each record contributing
the sequence line of each input file). -/
def fastqRun (st : CRState) (prs : List (List Char × List Char)) : CRState :=
  prs.foldl (fun st pr => fastqStep st pr.1 pr.2) st

/-- One iteration of the se branch of Compute_reads.cpp (lines 84-109). -/
def seStep (st : CRState) (l1 : List Char) : CRState :=
  let end_pos := st.start_pos + l1.length
  { out := st.out ++ l1 ++ ['\n'],
    ridx := st.ridx ++ [(st.n_reads, st.start_pos, end_pos)],
    start_pos := end_pos + 1,
    n_reads := st.n_reads + 1 }

/-- The se main loop over the records' sequence lines. -/
def seRun (st : CRState) (seqs : List (List Char)) : CRState :=
  seqs.foldl seStep st

/-- State of the fasta branch of Compute_reads.cpp (lines 111-153): the
Compute_reads output state plus the .header rows, the accumulated current
sequence and the pending header. -/
structure FaState where
  out : List Char
  ridx : List (Nat × Nat × Nat)
  headers : List (List Char × Nat × Nat)
  start_pos : Nat
  n_reads : Nat
  cur : List Char
  header : List Char

/-- The initial state of the fasta branch. -/
def faInit : FaState := ⟨[], [], [], 0, 0, [], []⟩

/-- One line of the fasta loop (Compute_reads.cpp:119-140): a header line
flushes the accumulated sequence (when non-empty) as a read and starts a
new record; any other line is appended to the accumulated sequence. -/
def fastaLine (st : FaState) (line : List Char) : FaState :=
  if line.headD (Char.ofNat 0) = '>' then
    if st.cur = [] then { st with header := line.tail }
    else
      { out := st.out ++ st.cur ++ ['\n'],
        ridx := st.ridx ++ [(st.n_reads, st.start_pos, st.start_pos + st.cur.length)],
        headers := st.headers ++ [(st.header, st.start_pos, st.cur.length)],
        start_pos := st.start_pos + st.cur.length + 1,
        n_reads := st.n_reads + 1,
        cur := [],
        header := line.tail }
  else { st with cur := st.cur ++ line }

/-- The final flush of the fasta branch (Compute_reads.cpp:142-150): emit
the last accumulated sequence when non-empty (`start_pos` is not advanced
there, as in the source). -/
def fastaFlush (st : FaState) : FaState :=
  if st.cur = [] then st
  else
    { st with
      out := st.out ++ st.cur ++ ['\n'],
      ridx := st.ridx ++ [(st.n_reads, st.start_pos, st.start_pos + st.cur.length)],
      headers := st.headers ++ [(st.header, st.start_pos, st.cur.length)],
      n_reads := st.n_reads + 1 }

/-- The whole fasta branch over the input lines. -/
def fastaRun (st : FaState) (lines : List (List Char)) : FaState :=
  fastaFlush (lines.foldl fastaLine st)

/-- Walk a .ridx table checking the RidxTable invariant of spec section 3:
dense rids in order, `start < end`, and each next start equal to the
previous end plus one; returns the expected rid and start for the rows
that would follow, or `none` on a violation. -/
def ridxCheck : Nat → Nat → List (Nat × Nat × Nat) → Option (Nat × Nat)
  | rid, start, [] => some (rid, start)
  | rid, start, r :: rest =>
    if r.1 = rid ∧ r.2.1 = start ∧ r.2.1 < r.2.2 then
      ridxCheck (r.1 + 1) (r.2.2 + 1) rest
    else none

/-- The RidxTable invariant of spec section 3, stated pointwise: rid_i = i,
start_i < end_i, start_{i+1} = end_i + 1 (hence starts strictly increase
and end_i < start_{i+1}). -/
def RidxTableOK (rows : List (Nat × Nat × Nat)) : Prop :=
  ∀ i, i < rows.length →
    (rows.getD i (0, 0, 0)).1 = i ∧
    (rows.getD i (0, 0, 0)).2.1 < (rows.getD i (0, 0, 0)).2.2 ∧
    (i + 1 < rows.length →
      (rows.getD (i + 1) (0, 0, 0)).2.1 = (rows.getD i (0, 0, 0)).2.2 + 1 ∧
      (rows.getD i (0, 0, 0)).2.1 < (rows.getD (i + 1) (0, 0, 0)).2.1 ∧
      (rows.getD i (0, 0, 0)).2.2 < (rows.getD (i + 1) (0, 0, 0)).2.1)

lemma ridxCheck_append (xs ys : List (Nat × Nat × Nat)) (a b : Nat) :
    ridxCheck a b (xs ++ ys) =
      (ridxCheck a b xs).bind (fun q => ridxCheck q.1 q.2 ys) := by
  induction xs generalizing a b with
  | nil => simp [ridxCheck]
  | cons r rest ih =>
    simp only [List.cons_append, ridxCheck]
    split
    · exact ih _ _
    · rfl

/-- The running invariant of the Compute_reads main loops: the rows written
so far pass the chained check, and the loop variables are exactly the
expected next rid and next start. -/
def crInv (st : CRState) : Prop :=
  ridxCheck 0 0 st.ridx = some (st.n_reads, st.start_pos)

lemma crInv_init : crInv crInit := rfl

lemma crInv_fastqStep (st : CRState) (l1 l2 : List Char) (h : crInv st) :
    crInv (fastqStep st l1 l2) := by
  unfold crInv at h ⊢
  simp only [fastqStep]
  rw [ridxCheck_append, h]
  simp only [Option.some_bind, ridxCheck]
  rw [if_pos ⟨by trivial, by trivial, by omega⟩]

lemma crInv_fastqRun (st : CRState) (prs : List (List Char × List Char))
    (h : crInv st) : crInv (fastqRun st prs) := by
  induction prs generalizing st with
  | nil => exact h
  | cons pr rest ih => exact ih _ (crInv_fastqStep st pr.1 pr.2 h)

lemma crInv_seStep (st : CRState) (l1 : List Char) (hne : l1 ≠ [])
    (h : crInv st) : crInv (seStep st l1) := by
  unfold crInv at h ⊢
  simp only [seStep]
  rw [ridxCheck_append, h]
  simp only [Option.some_bind, ridxCheck]
  have : 0 < l1.length := List.length_pos.mpr hne
  rw [if_pos ⟨by trivial, by trivial, by omega⟩]

lemma crInv_seRun (seqs : List (List Char)) :
    ∀ st : CRState, (∀ sq ∈ seqs, sq ≠ []) → crInv st →
      crInv (seRun st seqs) := by
  induction seqs with
  | nil => intro st _ h; exact h
  | cons sq rest ih =>
    intro st hse h
    exact ih _ (fun x hx => hse x (List.mem_cons_of_mem _ hx))
      (crInv_seStep st sq (hse sq (List.mem_cons_self _ _)) h)

/-- The running invariant of the fasta branch. -/
def faInv (st : FaState) : Prop :=
  ridxCheck 0 0 st.ridx = some (st.n_reads, st.start_pos)

lemma faInv_init : faInv faInit := rfl

lemma faInv_fastaLine (st : FaState) (line : List Char) (h : faInv st) :
    faInv (fastaLine st line) := by
  unfold faInv at h ⊢
  simp only [fastaLine]
  split
  · split
    · exact h
    · rename_i hcur
      simp only
      rw [ridxCheck_append, h]
      simp only [Option.some_bind, ridxCheck]
      have : 0 < st.cur.length := List.length_pos.mpr hcur
      rw [if_pos ⟨by trivial, by trivial, by omega⟩]
  · exact h

lemma faInv_foldl (st : FaState) (lines : List (List Char)) (h : faInv st) :
    faInv (lines.foldl fastaLine st) := by
  induction lines generalizing st with
  | nil => exact h
  | cons l rest ih => exact ih _ (faInv_fastaLine st l h)

lemma faInv_flush (st : FaState) (h : faInv st) :
    ∃ q, ridxCheck 0 0 (fastaFlush st).ridx = some q := by
  unfold fastaFlush
  split
  · exact ⟨_, h⟩
  · rename_i hcur
    simp only
    rw [ridxCheck_append, h]
    simp only [Option.some_bind, ridxCheck]
    have : 0 < st.cur.length := List.length_pos.mpr hcur
    rw [if_pos ⟨by trivial, by trivial, by omega⟩]
    exact ⟨_, rfl⟩

lemma ridxCheck_head_start (rows : List (Nat × Nat × Nat)) (a b : Nat)
    (q : Nat × Nat) (h : ridxCheck a b rows = some q) (hne : rows ≠ []) :
    (rows.getD 0 (0, 0, 0)).2.1 = b := by
  cases rows with
  | nil => exact absurd rfl hne
  | cons r rest =>
    simp only [ridxCheck] at h
    split at h
    · rename_i hcond
      simpa using hcond.2.1
    · exact absurd h (by simp)

lemma ridxCheck_facts (rows : List (Nat × Nat × Nat)) :
    ∀ (a b : Nat) (q : Nat × Nat), ridxCheck a b rows = some q →
    ∀ i, i < rows.length →
      (rows.getD i (0, 0, 0)).1 = a + i ∧
      (rows.getD i (0, 0, 0)).2.1 < (rows.getD i (0, 0, 0)).2.2 ∧
      (i + 1 < rows.length →
        (rows.getD (i + 1) (0, 0, 0)).2.1 = (rows.getD i (0, 0, 0)).2.2 + 1) := by
  induction rows with
  | nil => intro a b q _ i hi; simp at hi
  | cons r rest ih =>
    intro a b q h i hi
    simp only [ridxCheck] at h
    split at h
    · rename_i hcond
      obtain ⟨hr, _, hlt⟩ := hcond
      cases i with
      | zero =>
        refine ⟨by simpa using hr, by simpa using hlt, ?_⟩
        intro h1
        have hrest : rest ≠ [] := by
          intro hnil
          rw [hnil] at h1
          simp at h1
        have := ridxCheck_head_start rest (r.1 + 1) (r.2.2 + 1) q h hrest
        simpa using this
      | succ i =>
        have hi2 : i < rest.length := by simpa using hi
        obtain ⟨f1, f2, f3⟩ := ih (r.1 + 1) (r.2.2 + 1) q h i hi2
        refine ⟨?_, by simpa using f2, ?_⟩
        · simp only [List.getD_cons_succ]
          rw [f1, hr]; omega
        · intro h1
          have h2 : i + 1 < rest.length := by simpa using h1
          have := f3 h2
          simpa using this
    · exact absurd h (by simp)

lemma ridxCheck_tableOK (rows : List (Nat × Nat × Nat)) (q : Nat × Nat)
    (h : ridxCheck 0 0 rows = some q) : RidxTableOK rows := by
  intro i hi
  obtain ⟨h1, h2, h3⟩ := ridxCheck_facts rows 0 0 q h i hi
  refine ⟨by simpa using h1, h2, ?_⟩
  intro hi1
  have hchain := h3 hi1
  exact ⟨hchain, by omega, by omega⟩

/-- C5: in fastq mode, each processed pair appends subread1, `~`, the
base-wise reverse complement of subread2, and a newline to the .reads
bytes; the emitted .ridx row has end = start + |subread1| + |subread2| + 1,
and the next read starts at end + 1 (the appended bytes indeed number
|subread1| + |subread2| + 2). -/
theorem c5_fastq_pair_format (st : CRState) (l1 l2 : List Char) :
    (fastqStep st l1 l2).out =
      st.out ++ (l1 ++ ['~'] ++ get_revcomp l2 ++ ['\n']) ∧
    (fastqStep st l1 l2).ridx =
      st.ridx ++ [(st.n_reads, st.start_pos,
        st.start_pos + l1.length + l2.length + 1)] ∧
    (fastqStep st l1 l2).start_pos =
      (st.start_pos + l1.length + l2.length + 1) + 1 ∧
    (fastqStep st l1 l2).out.length =
      st.out.length + (l1.length + l2.length + 2) := by
  refine ⟨by simp [fastqStep], rfl, rfl, ?_⟩
  simp [fastqStep]
  omega

/-- C6: over any fastq or fasta input, and any se input whose reads are
non-empty, the .ridx table emitted by Compute_reads satisfies the
RidxTable invariant: rid_i = i, start_i < end_i, start_{i+1} = end_i + 1,
starts strictly increasing and end_i < start_{i+1}. -/
theorem c6_ridx_table_invariant (prs : List (List Char × List Char))
    (seqs : List (List Char)) (lines : List (List Char))
    (hse : ∀ sq ∈ seqs, sq ≠ []) :
    RidxTableOK ((fastqRun crInit prs).ridx) ∧
    RidxTableOK ((seRun crInit seqs).ridx) ∧
    RidxTableOK ((fastaRun faInit lines).ridx) := by
  refine ⟨?_, ?_, ?_⟩
  · exact ridxCheck_tableOK _ _ (crInv_fastqRun crInit prs crInv_init)
  · exact ridxCheck_tableOK _ _ (crInv_seRun seqs crInit hse crInv_init)
  · obtain ⟨q, hq⟩ := faInv_flush _ (faInv_foldl faInit lines faInv_init)
    exact ridxCheck_tableOK _ q hq

/-- C6 witness: the theorem applied to a concrete fastq, se and fasta
input. -/
theorem c6_ridx_table_invariant_witness :
    RidxTableOK ((fastqRun crInit [(['A', 'C'], ['G', 'G'])]).ridx) ∧
    RidxTableOK ((seRun crInit [['A'], ['C', 'T']]).ridx) ∧
    RidxTableOK ((fastaRun faInit [['>', 'h'], ['A', 'C'], ['G']]).ridx) :=
  c6_ridx_table_invariant [(['A', 'C'], ['G', 'G'])] [['A'], ['C', 'T']]
    [['>', 'h'], ['A', 'C'], ['G']] (by decide)

/-- C10: an out-of-range read id is detected by the size guard before any
array access and yields the empty string. -/
theorem c10_out_of_range_rid_empty (st : AindexState) (rid : Nat)
    (h : st.rows.length ≤ rid) : get_read_by_rid st rid = [] := by
  unfold get_read_by_rid
  rw [if_pos (by simpa [startPositions] using h)]

/-- C8: a query containing a character outside {A,C,G,T} is neutral on the
13-mer path: tf is 0 and the positions list is empty, with no failure. -/
theorem c8_invalid_alphabet_neutral (st : AindexState) (s : List Char)
    (h : s.any (fun c => ¬ isACGTb c) = true) :
    get_tf_value_13mer st s = 0 ∧ get_positions_13mer st s = [] := by
  constructor
  · unfold get_tf_value_13mer
    by_cases hmode : ¬ st.is_13mer_mode = true ∨ s.length ≠ 13
    · rw [if_pos hmode]
    · rw [if_neg hmode, if_pos h]
  · unfold get_positions_13mer
    by_cases hmode : ¬ st.is_13mer_mode = true ∨ s.length ≠ 13 ∨
        ¬ st.pos13_loaded = true
    · rw [if_pos hmode]
    · rw [if_neg hmode, if_pos h]

/-- A sample loaded 23-mer hash map: one kmer (AAA...A, packed word 0) with
tf 7; the MPHF maps every string to id 0, which spec section 4.B allows for
out-of-set keys. -/
def hmDemo : PHashMap :=
  { n := 1, lookup := fun _ => 0, checker := [0], tf_values := [7] }

/-- A sample fully loaded wrapper state, consistent with a build over the
two reads "AA" and "CC" for the reads store. -/
def stDemo : AindexState :=
  { hash_map := some hmDemo,
    is_13mer_mode := true,
    tf13 := [9],
    positions13 := [3, 6],
    indices13 := [0, 2],
    n13 := 2,
    pos13_loaded := true,
    indices := [0, 2],
    positions := [0, 5],
    indices_length := 16,
    aindex23_loaded := true,
    rows := [(0, 0, 2), (1, 3, 5)],
    reads := ['A', 'A', '\n', 'C', 'C', '\n'],
    aindex_loaded := true }

/-- The 13-character kmer ACGTACGTACGTN of spec scenario S4. -/
def kmerWithN : List Char :=
  ['A', 'C', 'G', 'T', 'A', 'C', 'G', 'T', 'A', 'C', 'G', 'T', 'N']

/-- C8 witness: the neutral result on ACGTACGTACGTN against the sample
state. -/
theorem c8_invalid_alphabet_neutral_witness :
    get_tf_value_13mer stDemo kmerWithN = 0 ∧
    get_positions_13mer stDemo kmerWithN = [] :=
  c8_invalid_alphabet_neutral stDemo kmerWithN (by decide)

/-- The 23-mer AAAAAAAAAAAAAAAAAAAAAAA. -/
def allA23 : List Char := List.replicate 23 'A'

/-- C10 witness: rid 2 is out of range for the two loaded reads of the
sample state and yields the empty read. -/
theorem c10_out_of_range_rid_empty_witness : get_read_by_rid stDemo 2 = [] :=
  c10_out_of_range_rid_empty stDemo 2 (by decide)

lemma posLoop_eq_slice_aux (ps : List Nat) (b : Nat) (hb : b ≤ ps.length) :
    ∀ (n a : Nat), b - a = n →
      posLoop ps a b =
        (((ps.drop a).take (b - a)).filter (fun p => decide (p ≠ 0))).map
          (fun p => p - 1) := by
  intro n
  induction n with
  | zero =>
    intro a ha
    rw [posLoop, dif_neg (by omega), ha]
    simp
  | succ n ih =>
    intro a ha
    have hab : a < b := by omega
    rw [posLoop, dif_pos hab, ih (a + 1) (by omega)]
    have haps : a < ps.length := by omega
    have hdrop : ps.drop a = ps[a] :: ps.drop (a + 1) :=
      List.drop_eq_getElem_cons haps
    have hba : b - a = (b - (a + 1)) + 1 := by omega
    rw [hdrop, hba]
    simp only [List.take_succ_cons, List.filter_cons]
    have hget : ps.getD a 0 = ps[a] := List.getD_eq_getElem ps 0 haps
    by_cases hz : ps[a] = 0
    · rw [hget, hz]
      simp
    · rw [hget, if_neg hz]
      simp [hz]

lemma posLoop_eq_slice (ps : List Nat) (a b : Nat) (hb : b ≤ ps.length) :
    posLoop ps a b =
      (((ps.drop a).take (b - a)).filter (fun p => decide (p ≠ 0))).map
        (fun p => p - 1) :=
  posLoop_eq_slice_aux ps b hb (b - a) a rfl

lemma get_pfid_lt (hm : PHashMap) (s : List Char) (h : Nat)
    (hpf : get_pfid hm s = some h) : h < hm.n := by
  unfold get_pfid at hpf
  split at hpf
  · split at hpf
    · exact absurd hpf (by simp)
    · rename_i hcond
      push_neg at hcond
      obtain rfl : _ = h := Option.some_injective _ hpf
      exact hcond.1
  · rename_i hcond
    push_neg at hcond
    obtain rfl : _ = h := Option.some_injective _ hpf
    exact hcond.1

/-- The positions contract stated by spec section 4.G: the non-zero entries
of the positions slice of the kmer's id, each decreased by one; empty when
the kmer is not in the set. -/
def positionsSpec (st : AindexState) (hm : PHashMap) (s : List Char) : List Nat :=
  match get_pfid hm s with
  | none => []
  | some h =>
    (((st.positions.drop (st.indices.getD h 0)).take
        (st.indices.getD (h + 1) 0 - st.indices.getD h 0)).filter
      (fun p => decide (p ≠ 0))).map (fun p => p - 1)

/-- C3: on a well-formed load (indices file of N+1 entries, slice bounds
within the positions array), the 23-mer positions query returns exactly the
non-zero entries of the id's slice decreased by one, and the empty list for
a kmer that is not in the set. -/
theorem c3_positions_contract (st : AindexState) (hm : PHashMap)
    (s : List Char) (hhm : st.hash_map = some hm)
    (hld : st.aindex23_loaded = true) (hlen : s.length = 23)
    (hwf1 : st.indices_length = 8 * st.indices.length)
    (hwf2 : st.indices.length = hm.n + 1)
    (hwf3 : st.indices.all (fun x => decide (x ≤ st.positions.length)) = true) :
    get_positions st s = positionsSpec st hm s := by
  unfold get_positions positionsSpec
  rw [hhm]
  rw [if_neg (by omega), if_pos hlen]
  simp only [hld, not_true_eq_false, if_false]
  cases hpf : get_pfid hm s with
  | none => rfl
  | some h =>
    have hn : h < hm.n := get_pfid_lt hm s h hpf
    show (if h + 1 < st.indices_length then
        posLoop st.positions (st.indices.getD h 0) (st.indices.getD (h + 1) 0)
      else []) =
      (((st.positions.drop (st.indices.getD h 0)).take
          (st.indices.getD (h + 1) 0 - st.indices.getD h 0)).filter
        (fun p => decide (p ≠ 0))).map (fun p => p - 1)
    rw [if_pos (by omega)]
    have hmem : st.indices.getD (h + 1) 0 ∈ st.indices := by
      rw [List.getD_eq_getElem st.indices 0 (by omega)]
      exact List.getElem_mem _
    have hbound : st.indices.getD (h + 1) 0 ≤ st.positions.length := by
      have := List.all_eq_true.mp hwf3 _ hmem
      simpa using this
    exact posLoop_eq_slice st.positions _ _ hbound

/-- C3 witness: the contract evaluated on the sample state at the kmer
AAA...A (id 0, slice [0, 2), stored positions 0 and 5, result [4]). -/
theorem c3_positions_contract_witness :
    get_positions stDemo allA23 = positionsSpec stDemo hmDemo allA23 :=
  c3_positions_contract stDemo hmDemo allA23 rfl rfl (by decide) (by decide)
    (by decide) (by decide)

/-- The 23-mer tf contract in the spec's words (section 4.C): if the lookup
of the kmer verifies against the checker, return its tf; else if the lookup
of the reverse complement verifies, return that tf; else 0. -/
def tf23Spec (hm : PHashMap) (s : List Char) : Nat :=
  if hm.lookup s < hm.n ∧ hm.checker.getD (hm.lookup s) 0 = packDNA s then
    hm.tf_values.getD (hm.lookup s) 0
  else if hm.lookup (get_revcomp s) < hm.n ∧
      hm.checker.getD (hm.lookup (get_revcomp s)) 0 = packDNA (get_revcomp s) then
    hm.tf_values.getD (hm.lookup (get_revcomp s)) 0
  else 0

/-- C2: the 23-mer tf lookup follows the spec contract: an id out of range
or with a mismatched checker entry on both the query and its reverse
complement yields 0 (a not-in-set kmer is never fatal), otherwise the tf of
the matching id. -/
theorem c2_get_tf_contract (hm : PHashMap) (s : List Char)
    (hv : validb s = true) (hlen : s.length = 23) :
    get_tf_value_23mer hm s = tf23Spec hm s := by
  have hpk : packDNA (get_revcomp s) = reverseDNA 23 (packDNA s) := by
    have := packDNA_get_revcomp s hv
    rwa [hlen] at this
  have hup : unpackDNA 23 (reverseDNA 23 (packDNA s)) = get_revcomp s := by
    have := unpackDNA_reverseDNA_packDNA s hv
    rwa [hlen] at this
  unfold get_tf_value_23mer tf23Spec
  rw [hup, hpk]
  by_cases hA : hm.lookup s < hm.n ∧
      hm.checker.getD (hm.lookup s) 0 = packDNA s
  · have hnot : ¬ (hm.n ≤ hm.lookup s ∨
        hm.checker.getD (hm.lookup s) 0 ≠ packDNA s) := by
      push_neg
      exact hA
    rw [if_neg hnot, if_pos hA]
  · have hyes : hm.n ≤ hm.lookup s ∨
        hm.checker.getD (hm.lookup s) 0 ≠ packDNA s := by
      by_contra hc
      push_neg at hc
      exact hA hc
    rw [if_pos hyes, if_neg hA]
    by_cases hB : hm.lookup (get_revcomp s) < hm.n ∧
        hm.checker.getD (hm.lookup (get_revcomp s)) 0 = reverseDNA 23 (packDNA s)
    · have hnot2 : ¬ (hm.n ≤ hm.lookup (get_revcomp s) ∨
          hm.checker.getD (hm.lookup (get_revcomp s)) 0 ≠
            reverseDNA 23 (packDNA s)) := by
        push_neg
        exact hB
      rw [if_neg hnot2, if_pos hB]
    · have hyes2 : hm.n ≤ hm.lookup (get_revcomp s) ∨
          hm.checker.getD (hm.lookup (get_revcomp s)) 0 ≠
            reverseDNA 23 (packDNA s) := by
        by_contra hc
        push_neg at hc
        exact hB hc
      rw [if_pos hyes2, if_neg hB]

/-- C2 witness: the contract evaluated against the sample hash map at
AAA...A. -/
theorem c2_get_tf_contract_witness :
    get_tf_value_23mer hmDemo allA23 = tf23Spec hmDemo allA23 :=
  c2_get_tf_contract hmDemo allA23 (by decide) (by decide)

lemma canonicalOK_spec (hm : PHashMap) (hcanon : canonicalOK hm = true)
    (i : Nat) (hi : i < hm.n) :
    hm.checker.getD i 0 ≤ reverseDNA 23 (hm.checker.getD i 0) := by
  have := List.all_eq_true.mp hcanon i (List.mem_range.mpr hi)
  simpa using this

lemma get_pfid_revcomp (hm : PHashMap) (s : List Char)
    (hv : validb s = true) (hlen : s.length = 23)
    (hcanon : canonicalOK hm = true) :
    get_pfid hm s = get_pfid hm (get_revcomp s) := by
  have hu : packDNA s < 4 ^ 23 := by
    have := packDNA_lt s
    rwa [hlen] at this
  have hpkt : packDNA (get_revcomp s) = reverseDNA 23 (packDNA s) := by
    have := packDNA_get_revcomp s hv
    rwa [hlen] at this
  have hupt : unpackDNA 23 (reverseDNA 23 (packDNA s)) = get_revcomp s := by
    have := unpackDNA_reverseDNA_packDNA s hv
    rwa [hlen] at this
  have hrr : reverseDNA 23 (packDNA (get_revcomp s)) = packDNA s := by
    rw [hpkt]
    exact reverseDNA_reverseDNA _ _ hu
  have hups : unpackDNA 23 (reverseDNA 23 (packDNA (get_revcomp s))) = s := by
    rw [hrr]
    have := unpackDNA_packDNA s hv
    rwa [hlen] at this
  have himp : ¬ ((hm.lookup s < hm.n ∧
        hm.checker.getD (hm.lookup s) 0 = packDNA s) ∧
      (hm.lookup (get_revcomp s) < hm.n ∧
        hm.checker.getD (hm.lookup (get_revcomp s)) 0 =
          reverseDNA 23 (packDNA s))) := by
    rintro ⟨⟨ha1, ha2⟩, ⟨hb1, hb2⟩⟩
    have h1 : packDNA s ≤ reverseDNA 23 (packDNA s) := by
      have := canonicalOK_spec hm hcanon _ ha1
      rwa [ha2] at this
    have h2 : reverseDNA 23 (packDNA s) ≤ packDNA s := by
      have := canonicalOK_spec hm hcanon _ hb1
      rwa [hb2, reverseDNA_reverseDNA _ _ hu] at this
    exact reverseDNA_ne_self_23 (packDNA s) (by omega)
  by_cases hA : hm.n ≤ hm.lookup s ∨
      hm.checker.getD (hm.lookup s) 0 ≠ packDNA s
  · by_cases hB : hm.n ≤ hm.lookup (get_revcomp s) ∨
        hm.checker.getD (hm.lookup (get_revcomp s)) 0 ≠ reverseDNA 23 (packDNA s)
    · have e1 : get_pfid hm s = none := by
        unfold get_pfid
        rw [hupt, if_pos hA, if_pos hB]
      have e2 : get_pfid hm (get_revcomp s) = none := by
        unfold get_pfid
        rw [hups, hrr, hpkt, if_pos hB, if_pos hA]
      rw [e1, e2]
    · have e1 : get_pfid hm s = some (hm.lookup (get_revcomp s)) := by
        unfold get_pfid
        rw [hupt, if_pos hA, if_neg hB]
      have e2 : get_pfid hm (get_revcomp s) = some (hm.lookup (get_revcomp s)) := by
        unfold get_pfid
        rw [hups, hrr, hpkt, if_neg hB]
      rw [e1, e2]
  · have hAok : hm.lookup s < hm.n ∧
        hm.checker.getD (hm.lookup s) 0 = packDNA s := by
      push_neg at hA
      exact hA
    have hB : hm.n ≤ hm.lookup (get_revcomp s) ∨
        hm.checker.getD (hm.lookup (get_revcomp s)) 0 ≠
          reverseDNA 23 (packDNA s) := by
      by_contra hc
      push_neg at hc
      exact himp ⟨hAok, hc⟩
    have e1 : get_pfid hm s = some (hm.lookup s) := by
      unfold get_pfid
      rw [if_neg hA]
    have e2 : get_pfid hm (get_revcomp s) = some (hm.lookup s) := by
      unfold get_pfid
      rw [hups, hrr, hpkt, if_pos hB, if_neg hA]
    rw [e1, e2]

lemma get_tf_value_23mer_eq_pfid (hm : PHashMap) (s : List Char) :
    get_tf_value_23mer hm s =
      (get_pfid hm s).elim 0 (fun h => hm.tf_values.getD h 0) := by
  unfold get_tf_value_23mer get_pfid
  by_cases hA : hm.n ≤ hm.lookup s ∨
      hm.checker.getD (hm.lookup s) 0 ≠ packDNA s
  · rw [if_pos hA, if_pos hA]
    by_cases hB : hm.n ≤ hm.lookup (unpackDNA 23 (reverseDNA 23 (packDNA s))) ∨
        hm.checker.getD
            (hm.lookup (unpackDNA 23 (reverseDNA 23 (packDNA s)))) 0 ≠
          reverseDNA 23 (packDNA s)
    · rw [if_pos hB, if_pos hB]
      rfl
    · rw [if_neg hB, if_neg hB]
      rfl
  · rw [if_neg hA, if_neg hA]
    rfl

/-- The 23-mer branch of `get_positions`, with the hash map resolved. -/
lemma get_positions_eq_23 (st : AindexState) (hm : PHashMap) (s : List Char)
    (hhm : st.hash_map = some hm) (hlen : s.length = 23) :
    get_positions st s =
      (if ¬ st.aindex23_loaded = true then []
       else
         match get_pfid hm s with
         | none => []
         | some h1 =>
           if h1 + 1 < st.indices_length then
             posLoop st.positions (st.indices.getD h1 0)
               (st.indices.getD (h1 + 1) 0)
           else []) := by
  unfold get_positions
  rw [if_neg (by omega), if_pos hlen, hhm]

lemma lookup13_lt (s : List Char) (hlen : s.length = 13) :
    lookup13 s < TOTAL13 := by
  unfold lookup13 TOTAL13
  have h1 := packDNA_lt s
  rw [hlen] at h1
  have h3 : (4 : Nat) ^ 13 = 67108864 := by norm_num
  have h2 := Nat.min_le_left (packDNA s) (reverseDNA 13 (packDNA s))
  omega

lemma lookup13_revcomp (s : List Char) (hv : validb s = true)
    (hlen : s.length = 13) : lookup13 (get_revcomp s) = lookup13 s := by
  unfold lookup13
  have hu : packDNA s < 4 ^ 13 := by
    have := packDNA_lt s
    rwa [hlen] at this
  have hpkt : packDNA (get_revcomp s) = reverseDNA 13 (packDNA s) := by
    have := packDNA_get_revcomp s hv
    rwa [hlen] at this
  rw [hpkt, reverseDNA_reverseDNA _ _ hu, Nat.min_comm]

lemma get_tf13_eval (st : AindexState) (s : List Char) (hv : validb s = true)
    (hlen : s.length = 13) (hmode : st.is_13mer_mode = true) :
    get_tf_value_13mer st s = st.tf13.getD (lookup13 s) 0 := by
  unfold get_tf_value_13mer
  rw [if_neg (by simp [hmode, hlen]),
    if_neg (by simpa using (validb_iff s).mp hv),
    if_pos (lookup13_lt s hlen)]

lemma get_tf13_revcomp (st : AindexState) (s : List Char)
    (hv : validb s = true) (hlen : s.length = 13) :
    get_tf_value_13mer st s = get_tf_value_13mer st (get_revcomp s) := by
  by_cases hmode : st.is_13mer_mode = true
  · rw [get_tf13_eval st s hv hlen hmode,
      get_tf13_eval st (get_revcomp s) (validb_get_revcomp s hv)
        (by simp [hlen]) hmode,
      lookup13_revcomp s hv hlen]
  · have e1 : get_tf_value_13mer st s = 0 := by
      unfold get_tf_value_13mer
      rw [if_pos (Or.inl hmode)]
    have e2 : get_tf_value_13mer st (get_revcomp s) = 0 := by
      unfold get_tf_value_13mer
      rw [if_pos (Or.inl hmode)]
    rw [e1, e2]

lemma get_pos13_eval (st : AindexState) (s : List Char) (hv : validb s = true)
    (hlen : s.length = 13) (hmode : st.is_13mer_mode = true)
    (hpl : st.pos13_loaded = true) :
    get_positions_13mer st s =
      posLoop st.positions13 (st.indices13.getD (lookup13 s) 0)
        (min (st.indices13.getD (lookup13 s + 1) 0) st.n13) := by
  unfold get_positions_13mer
  rw [if_neg (by simp [hmode, hlen, hpl]),
    if_neg (by simpa using (validb_iff s).mp hv),
    if_pos (lookup13_lt s hlen)]

lemma get_pos13_revcomp (st : AindexState) (s : List Char)
    (hv : validb s = true) (hlen : s.length = 13) :
    get_positions_13mer st s = get_positions_13mer st (get_revcomp s) := by
  by_cases hgate : st.is_13mer_mode = true ∧ st.pos13_loaded = true
  · rw [get_pos13_eval st s hv hlen hgate.1 hgate.2,
      get_pos13_eval st (get_revcomp s) (validb_get_revcomp s hv)
        (by simp [hlen]) hgate.1 hgate.2,
      lookup13_revcomp s hv hlen]
  · have h1 : ¬ st.is_13mer_mode = true ∨ s.length ≠ 13 ∨
        ¬ st.pos13_loaded = true := by
      by_cases hm13 : st.is_13mer_mode = true
      · exact Or.inr (Or.inr (fun hp => hgate ⟨hm13, hp⟩))
      · exact Or.inl hm13
    have h2 : ¬ st.is_13mer_mode = true ∨ (get_revcomp s).length ≠ 13 ∨
        ¬ st.pos13_loaded = true := by
      rcases h1 with h | h | h
      · exact Or.inl h
      · exact absurd hlen h
      · exact Or.inr (Or.inr h)
    have e1 : get_positions_13mer st s = [] := by
      unfold get_positions_13mer
      rw [if_pos h1]
    have e2 : get_positions_13mer st (get_revcomp s) = [] := by
      unfold get_positions_13mer
      rw [if_pos h2]
    rw [e1, e2]

/-- C1: canonical symmetry of queries.  For an ACGT 23-mer (with the
canonical-checker data-model invariant) the tf lookup and the positions
lookup agree on the kmer and its reverse complement, and likewise for an
ACGT 13-mer on the direct-indexing path. -/
theorem c1_canonical_symmetry (st : AindexState) (hm : PHashMap)
    (s t : List Char) (hhm : st.hash_map = some hm)
    (hvs : validb s = true) (hlens : s.length = 23)
    (hcanon : canonicalOK hm = true)
    (hvt : validb t = true) (hlent : t.length = 13) :
    get_tf_value_23mer hm s = get_tf_value_23mer hm (get_revcomp s) ∧
    get_positions st s = get_positions st (get_revcomp s) ∧
    get_tf_value_13mer st t = get_tf_value_13mer st (get_revcomp t) ∧
    get_positions_13mer st t = get_positions_13mer st (get_revcomp t) := by
  refine ⟨?_, ?_, get_tf13_revcomp st t hvt hlent,
    get_pos13_revcomp st t hvt hlent⟩
  · rw [get_tf_value_23mer_eq_pfid, get_tf_value_23mer_eq_pfid,
      get_pfid_revcomp hm s hvs hlens hcanon]
  · rw [get_positions_eq_23 st hm s hhm hlens,
      get_positions_eq_23 st hm (get_revcomp s) hhm (by simp [hlens]),
      get_pfid_revcomp hm s hvs hlens hcanon]

/-- The 13-mer AAAAAAAAAAAAA. -/
def allA13 : List Char := List.replicate 13 'A'

/-- C1 witness: the symmetry applied to the sample state at AAA...A for
both kmer lengths. -/
theorem c1_canonical_symmetry_witness :
    get_tf_value_23mer hmDemo allA23 =
      get_tf_value_23mer hmDemo (get_revcomp allA23) ∧
    get_positions stDemo allA23 = get_positions stDemo (get_revcomp allA23) ∧
    get_tf_value_13mer stDemo allA13 =
      get_tf_value_13mer stDemo (get_revcomp allA13) ∧
    get_positions_13mer stDemo allA13 =
      get_positions_13mer stDemo (get_revcomp allA13) :=
  c1_canonical_symmetry stDemo hmDemo allA23 allA13 rfl (by decide) (by decide)
    (by decide) (by decide) (by decide)

/-- The strand contract in the spec's words (section 4.C): Forward (1) when
the query itself verifies against the checker, Reverse (2) when only its
reverse complement does, NotFound (0) otherwise. -/
def strandSpec (hm : PHashMap) (s : List Char) : Nat :=
  if hm.lookup s < hm.n ∧ hm.checker.getD (hm.lookup s) 0 = packDNA s then 1
  else if hm.lookup (get_revcomp s) < hm.n ∧
      hm.checker.getD (hm.lookup (get_revcomp s)) 0 = packDNA (get_revcomp s) then 2
  else 0

lemma get_strand_eq_spec (hm : PHashMap) (s : List Char)
    (hv : validb s = true) (hlen : s.length = 23) :
    get_strand hm s = strandSpec hm s := by
  have hpk : packDNA (get_revcomp s) = reverseDNA 23 (packDNA s) := by
    have := packDNA_get_revcomp s hv
    rwa [hlen] at this
  have hup : unpackDNA 23 (reverseDNA 23 (packDNA s)) = get_revcomp s := by
    have := unpackDNA_reverseDNA_packDNA s hv
    rwa [hlen] at this
  unfold get_strand strandSpec
  rw [hup, hpk]
  by_cases hA : hm.lookup s < hm.n ∧
      hm.checker.getD (hm.lookup s) 0 = packDNA s
  · have hnot : ¬ (hm.n ≤ hm.lookup s ∨
        hm.checker.getD (hm.lookup s) 0 ≠ packDNA s) := by
      push_neg
      exact hA
    rw [if_neg hnot, if_pos hA]
  · have hyes : hm.n ≤ hm.lookup s ∨
        hm.checker.getD (hm.lookup s) 0 ≠ packDNA s := by
      by_contra hc
      push_neg at hc
      exact hA hc
    rw [if_pos hyes, if_neg hA]
    by_cases hB : hm.lookup (get_revcomp s) < hm.n ∧
        hm.checker.getD (hm.lookup (get_revcomp s)) 0 = reverseDNA 23 (packDNA s)
    · have hnot2 : ¬ (hm.n ≤ hm.lookup (get_revcomp s) ∨
          hm.checker.getD (hm.lookup (get_revcomp s)) 0 ≠
            reverseDNA 23 (packDNA s)) := by
        push_neg
        exact hB
      rw [if_neg hnot2, if_pos hB]
    · have hyes2 : hm.n ≤ hm.lookup (get_revcomp s) ∨
          hm.checker.getD (hm.lookup (get_revcomp s)) 0 ≠
            reverseDNA 23 (packDNA s) := by
        by_contra hc
        push_neg at hc
        exact hB hc
      rw [if_pos hyes2, if_neg hB]

/-- C9: get_strand classifies by the checker procedure: Forward exactly
when the query itself verifies, Reverse exactly when only its reverse
complement does, NotFound otherwise; in particular a stored kmer queried
as-is is Forward and queried as its reverse complement is Reverse. -/
theorem c9_strand_classification (hm : PHashMap) (s : List Char)
    (hv : validb s = true) (hlen : s.length = 23)
    (hcanon : canonicalOK hm = true) (hfwd : fwdOkb hm s = true) :
    (∀ t, validb t = true → t.length = 23 →
      get_strand hm t = strandSpec hm t) ∧
    get_strand hm s = 1 ∧ get_strand hm (get_revcomp s) = 2 := by
  have hA : hm.lookup s < hm.n ∧
      hm.checker.getD (hm.lookup s) 0 = packDNA s := by
    simpa [fwdOkb] using hfwd
  have hu : packDNA s < 4 ^ 23 := by
    have := packDNA_lt s
    rwa [hlen] at this
  have hpkt : packDNA (get_revcomp s) = reverseDNA 23 (packDNA s) := by
    have := packDNA_get_revcomp s hv
    rwa [hlen] at this
  have hrr : reverseDNA 23 (packDNA (get_revcomp s)) = packDNA s := by
    rw [hpkt]
    exact reverseDNA_reverseDNA _ _ hu
  have hups : unpackDNA 23 (reverseDNA 23 (packDNA (get_revcomp s))) = s := by
    rw [hrr]
    have := unpackDNA_packDNA s hv
    rwa [hlen] at this
  refine ⟨fun t hvt hlent => get_strand_eq_spec hm t hvt hlent, ?_, ?_⟩
  · unfold get_strand
    rw [if_neg (by push_neg; exact hA)]
  · have hB : hm.n ≤ hm.lookup (get_revcomp s) ∨
        hm.checker.getD (hm.lookup (get_revcomp s)) 0 ≠
          packDNA (get_revcomp s) := by
      by_contra hc
      push_neg at hc
      have h1 : packDNA s ≤ reverseDNA 23 (packDNA s) := by
        have := canonicalOK_spec hm hcanon _ hA.1
        rwa [hA.2] at this
      have h2 : reverseDNA 23 (packDNA s) ≤ packDNA s := by
        have := canonicalOK_spec hm hcanon _ hc.1
        rwa [hc.2, hpkt, reverseDNA_reverseDNA _ _ hu] at this
      have := hc.2
      rw [hpkt] at this
      exact reverseDNA_ne_self_23 (packDNA s) (by omega)
    unfold get_strand
    rw [hups, hrr, if_pos hB, if_neg (by push_neg; exact hA)]

/-- C9 witness: on the sample hash map, AAA...A is stored forward; the
strand of AAA...A is Forward and of TTT...T is Reverse. -/
theorem c9_strand_classification_witness :
    (∀ t, validb t = true → t.length = 23 →
      get_strand hmDemo t = strandSpec hmDemo t) ∧
    get_strand hmDemo allA23 = 1 ∧
    get_strand hmDemo (get_revcomp allA23) = 2 :=
  c9_strand_classification hmDemo allA23 (by decide) (by decide) (by decide)
    (by decide)

/-- The 23-mer kmer AAAAAAAAAAAAAAAAAAAAAAC, not in the sample build set on
either strand. -/
def kmerA22C : List Char := List.replicate 22 'A' ++ ['C']

/-- C4 counterexample: the batch lookup does not agree element-wise with
the single-kmer lookup.  On the sample state, for the not-in-set 23-mer
AAA...AC the batch returns the raw tf at the unverified MPHF lookup (7)
while the single lookup returns 0. -/
theorem c4_batch_single_counterexample :
    stDemo.hash_map = some hmDemo ∧ kmerA22C.length = 23 ∧
    get_tf_values stDemo [kmerA22C] ≠ [get_tf_value_23mer hmDemo kmerA22C] :=
  ⟨rfl, by decide, by decide⟩

/-- C4 amended: for a non-empty list of kmers whose first element has
length 23 (with the hash map loaded), get_tf_values returns element-wise
the raw tf at the unverified MPHF lookup of each kmer — with no checker
verification and no reverse complement fallback — and this agrees with the
single-kmer lookup exactly on kmers whose forward lookup verifies against
the checker. -/
theorem c4_batch_tf_amended (st : AindexState) (hm : PHashMap)
    (k0 : List Char) (rest : List (List Char))
    (hhm : st.hash_map = some hm) (hlen : k0.length = 23) :
    get_tf_values st (k0 :: rest) =
      (k0 :: rest).map (fun s => hm.tf_values.getD (hm.lookup s) 0) ∧
    (∀ s, fwdOkb hm s = true →
      hm.tf_values.getD (hm.lookup s) 0 = get_tf_value_23mer hm s) := by
  constructor
  · unfold get_tf_values
    rw [if_neg (by simp)]
    simp only [List.headD_cons]
    rw [if_neg (by rintro ⟨h13, _⟩; omega),
      if_pos ⟨hlen, by rw [hhm]; rfl⟩, hhm]
  · intro s hs
    have hA : hm.lookup s < hm.n ∧
        hm.checker.getD (hm.lookup s) 0 = packDNA s := by
      simpa [fwdOkb] using hs
    unfold get_tf_value_23mer
    rw [if_neg (by push_neg; exact hA)]

/-- C4 amended witness: the amended statement applied to the sample state
and the singleton batch [AAA...A]. -/
theorem c4_batch_tf_amended_witness :
    get_tf_values stDemo (allA23 :: []) =
      (allA23 :: []).map
        (fun s => hmDemo.tf_values.getD (hmDemo.lookup s) 0) ∧
    (∀ s, fwdOkb hmDemo s = true →
      hmDemo.tf_values.getD (hmDemo.lookup s) 0 =
        get_tf_value_23mer hmDemo s) :=
  c4_batch_tf_amended stDemo hmDemo allA23 [] rfl (by decide)

lemma getD_take_drop (l : List Char) (s n p : Nat) (hsp2 : s ≤ p)
    (hlt : p - s < n) :
    ((l.drop s).take n).getD (p - s) 'A' = l.getD p 'A' := by
  rw [List.getD_eq_getElem?_getD, List.getD_eq_getElem?_getD,
    List.getElem?_take_of_lt hlt, List.getElem?_drop,
    Nat.add_sub_cancel' hsp2]

lemma find?_eq_of_unique {α : Type} (l : List α) (f : α → Bool) (x : α)
    (hx : x ∈ l) (hfx : f x = true) (huniq : ∀ y ∈ l, f y = true → y = x) :
    l.find? f = some x := by
  induction l with
  | nil => simp at hx
  | cons a t ih =>
    by_cases hfa : f a = true
    · have ha : a = x := huniq a (List.mem_cons_self _ _) hfa
      subst ha
      simp [List.find?_cons, hfa]
    · rw [List.find?_cons_of_neg _ (by simpa using hfa)]
      rcases List.mem_cons.mp hx with rfl | hxt
      · exact absurd hfx hfa
      · exact ih hxt (fun y hy hf => huniq y (List.mem_cons_of_mem _ hy) hf)

lemma filter_head_of_first {α : Type} (l : List α) (f : α → Bool) (dflt : α) :
    ∀ i, i < l.length → (∀ j, j < i → f (l.getD j dflt) = false) →
      f (l.getD i dflt) = true →
      ∃ tl, l.filter f = l.getD i dflt :: tl := by
  induction l with
  | nil => intro i hi; simp at hi
  | cons a t ih =>
    intro i hi hbefore hx
    cases i with
    | zero =>
      simp only [List.getD_cons_zero] at hx ⊢
      exact ⟨t.filter f, by simp [List.filter_cons, hx]⟩
    | succ i =>
      have hfa : f a = false := by
        have := hbefore 0 (Nat.succ_pos _)
        simpa using this
      obtain ⟨tl, htl⟩ := ih i (by simpa using hi)
        (fun j hj => by
          have := hbefore (j + 1) (by omega)
          simpa using this)
        (by simpa using hx)
      refine ⟨tl, ?_⟩
      simp only [List.getD_cons_succ]
      simp [List.filter_cons, hfa, htl]

lemma ridx_start_mono (rows : List (Nat × Nat × Nat)) (q : Nat × Nat)
    (hchk : ridxCheck 0 0 rows = some q) :
    ∀ j i, j < i → i < rows.length →
      (rows.getD j (0, 0, 0)).2.2 + 1 ≤ (rows.getD i (0, 0, 0)).2.1 := by
  intro j i
  induction i with
  | zero => intro h1 _; omega
  | succ i ih =>
    intro hji hi
    have hfacts_i := ridxCheck_facts rows 0 0 q hchk i (by omega)
    have hchain := hfacts_i.2.2 (by omega)
    have hlt := hfacts_i.2.1
    by_cases hje : j = i
    · subst hje; omega
    · have h1 := ih (by omega) (by omega)
      omega

lemma intervalsOf_getD (st : AindexState) (j : Nat) (hj : j < st.rows.length) :
    (intervalsOf st).getD j (0, 0, 0) =
      ((st.rows.getD j (0, 0, 0)).1, (st.rows.getD j (0, 0, 0)).2.1,
        (st.rows.getD j (0, 0, 0)).2.2 + 1) := by
  unfold intervalsOf
  rw [List.getD_eq_getElem _ _ (by simpa using hj), List.getElem_map,
    List.getD_eq_getElem _ _ hj]

lemma startPositions_getD (st : AindexState) (j : Nat)
    (hj : j < st.rows.length) :
    (startPositions st).getD j 0 = (st.rows.getD j (0, 0, 0)).2.1 := by
  unfold startPositions
  rw [List.getD_eq_getElem _ _ (by simpa using hj), List.getElem_map,
    List.getD_eq_getElem _ _ hj]

lemma ridx_start_strict_mono (rows : List (Nat × Nat × Nat)) (q : Nat × Nat)
    (hchk : ridxCheck 0 0 rows = some q) (j i : Nat) (hji : j < i)
    (hi : i < rows.length) :
    (rows.getD j (0, 0, 0)).2.1 < (rows.getD i (0, 0, 0)).2.1 := by
  have h1 := ridx_start_mono rows q hchk j i hji hi
  have h2 := (ridxCheck_facts rows 0 0 q hchk j (by omega)).2.1
  omega

lemma start2end_eq (st : AindexState) (q : Nat × Nat)
    (hchk : ridxCheck 0 0 st.rows = some q) (i : Nat)
    (hi : i < st.rows.length) :
    start2end st ((st.rows.getD i (0, 0, 0)).2.1) =
      (st.rows.getD i (0, 0, 0)).2.2 := by
  unfold start2end
  have hgd : st.rows.getD i (0, 0, 0) = st.rows[i] :=
    List.getD_eq_getElem st.rows (0, 0, 0) hi
  have hfind : st.rows.reverse.find?
      (fun r => decide (r.2.1 = (st.rows.getD i (0, 0, 0)).2.1)) =
      some (st.rows.getD i (0, 0, 0)) := by
    apply find?_eq_of_unique
    · rw [hgd]
      exact List.mem_reverse.mpr (List.getElem_mem _)
    · simp
    · intro y hy hf
      obtain ⟨j, hj, hyj⟩ := List.mem_iff_getElem.mp (List.mem_reverse.mp hy)
      have hyj2 : y = st.rows.getD j (0, 0, 0) := by
        rw [List.getD_eq_getElem st.rows (0, 0, 0) hj, hyj]
      simp only [decide_eq_true_eq] at hf
      by_cases hji : j = i
      · rw [hyj2, hji, hgd]
      · exfalso
        rcases Nat.lt_or_ge j i with hlt | hge
        · have := ridx_start_strict_mono st.rows q hchk j i hlt hi
          rw [hyj2] at hf
          omega
        · have hgt : i < j := by omega
          have := ridx_start_strict_mono st.rows q hchk i j hgt hj
          rw [hyj2] at hf
          omega
  rw [hfind]
  rfl

/-- C7 counterexample: on the loaded reads store "AA\nCC\n" with .ridx rows
(0,0,2) and (1,3,5), the offset 3 lies inside read 1's interval [3,5], yet
get_rid resolves it to read 0 (the +1-widened intervals overlap at read
starts and the first overlap in insertion order wins), whose bytes neither
cover offset 3 nor even contain the byte stored there. -/
theorem c7_offset_rid_counterexample :
    stDemo.aindex_loaded = true ∧
    ridxCheck 0 0 stDemo.rows = some (2, 6) ∧
    (stDemo.rows.getD 1 (0, 0, 0)).2.1 ≤ 3 ∧
    3 ≤ (stDemo.rows.getD 1 (0, 0, 0)).2.2 ∧
    get_rid stDemo 3 = 0 ∧
    ¬ coversByte stDemo 3 ∧
    stDemo.reads.getD 3 'A' ∉ get_read_by_rid stDemo (get_rid stDemo 3) := by
  refine ⟨rfl, by decide, by decide, by decide, by decide,
    by unfold coversByte; decide, by decide⟩

/-- C7 amended: offset-to-rid resolution covers the byte for every offset p
inside a read's interval that is not the start offset of a read other than
read 0: if the .ridx table is valid, the aindex is loaded, row i covers p
(with start_i < p, or i = 0), p ≤ end_i, and end_i is inside the reads
blob, then the read returned by get_read_by_rid (get_rid p) contains the
byte stored at offset p at local offset p - start_i. -/
theorem c7_offset_rid_amended (st : AindexState) (q : Nat × Nat) (i p : Nat)
    (hload : st.aindex_loaded = true)
    (hchk : ridxCheck 0 0 st.rows = some q)
    (hi : i < st.rows.length)
    (hlow : (st.rows.getD i (0, 0, 0)).2.1 < p ∨ i = 0)
    (hhigh : p ≤ (st.rows.getD i (0, 0, 0)).2.2)
    (hreads : (st.rows.getD i (0, 0, 0)).2.2 < st.reads.length) :
    coversByte st p := by
  have hfacts := ridxCheck_facts st.rows 0 0 q hchk
  have hrid : (st.rows.getD i (0, 0, 0)).1 = i := by
    simpa using (hfacts i hi).1
  have hslt_e : (st.rows.getD i (0, 0, 0)).2.1 <
      (st.rows.getD i (0, 0, 0)).2.2 := (hfacts i hi).2.1
  have hsle : (st.rows.getD i (0, 0, 0)).2.1 ≤ p := by
    rcases hlow with h | hzero
    · omega
    · subst hzero
      have h0 : (st.rows.getD 0 (0, 0, 0)).2.1 = 0 :=
        ridxCheck_head_start st.rows 0 0 q hchk
          (by intro h; rw [h] at hi; simp at hi)
      omega
  have hlen2 : i < (intervalsOf st).length := by
    simpa [intervalsOf] using hi
  have hmatch : (fun iv => decide (iv.2.1 ≤ p + 1 ∧ p ≤ iv.2.2))
      ((intervalsOf st).getD i (0, 0, 0)) = true := by
    rw [intervalsOf_getD st i hi]
    simp only [decide_eq_true_eq]
    exact ⟨by omega, by omega⟩
  have hbefore : ∀ j, j < i →
      (fun iv => decide (iv.2.1 ≤ p + 1 ∧ p ≤ iv.2.2))
        ((intervalsOf st).getD j (0, 0, 0)) = false := by
    intro j hj
    rw [intervalsOf_getD st j (by omega)]
    simp only [decide_eq_false_iff_not]
    rintro ⟨h1, h2⟩
    have hslt : (st.rows.getD i (0, 0, 0)).2.1 < p := by
      rcases hlow with h | h
      · exact h
      · omega
    have hmono := ridx_start_mono st.rows q hchk j i hj hi
    omega
  obtain ⟨tl, htl⟩ :=
    filter_head_of_first (intervalsOf st)
      (fun iv => decide (iv.2.1 ≤ p + 1 ∧ p ≤ iv.2.2)) (0, 0, 0) i hlen2
      hbefore hmatch
  have hrid_eq : get_rid st p = i := by
    unfold get_rid
    rw [if_neg (by
      rintro (h | h)
      · exact h hload
      · rw [h] at hlen2; simp at hlen2)]
    unfold queryIntervals
    rw [htl]
    show ((intervalsOf st).getD i (0, 0, 0)).1 = i
    rw [intervalsOf_getD st i hi]
    exact hrid
  have hsp : (startPositions st).getD i 0 = (st.rows.getD i (0, 0, 0)).2.1 :=
    startPositions_getD st i hi
  have hread : get_read_by_rid st i =
      (st.reads.drop ((st.rows.getD i (0, 0, 0)).2.1)).take
        ((st.rows.getD i (0, 0, 0)).2.2 - (st.rows.getD i (0, 0, 0)).2.1 + 1) := by
    unfold get_read_by_rid
    rw [if_neg (by
      intro h
      have : (startPositions st).length = st.rows.length := by
        simp [startPositions]
      omega)]
    rw [hsp, start2end_eq st q hchk i hi]
  have hlength : (get_read_by_rid st i).length =
      (st.rows.getD i (0, 0, 0)).2.2 - (st.rows.getD i (0, 0, 0)).2.1 + 1 := by
    rw [hread]
    simp only [List.length_take, List.length_drop]
    omega
  have hcov1 : (startPositions st).getD (get_rid st p) 0 ≤ p := by
    rw [hrid_eq, hsp]
    exact hsle
  have hcov2 : p - (startPositions st).getD (get_rid st p) 0 <
      (get_read_by_rid st (get_rid st p)).length := by
    rw [hrid_eq, hsp, hlength]
    omega
  have hcov3 : (get_read_by_rid st (get_rid st p)).getD
      (p - (startPositions st).getD (get_rid st p) 0) 'A' =
        st.reads.getD p 'A' := by
    rw [hrid_eq, hsp, hread]
    exact getD_take_drop st.reads _ _ p hsle (by omega)
  exact ⟨hcov1, hcov2, hcov3⟩

/-- C7 amended witness: offset 4 (strictly inside read 1) resolves to read
1 and its bytes cover offset 4. -/
theorem c7_offset_rid_amended_witness : coversByte stDemo 4 :=
  c7_offset_rid_amended stDemo (2, 6) 1 4 rfl (by decide) (by decide)
    (by decide) (by decide) (by decide)
